import Mathlib

/-!
Verification of the evaluation workflow of the rapids-mnist-dt notebook.

The notebook delegates every metric computation to library calls
(accuracy_score, confusion_matrix, classification_report, show_failures,
astype).  Those functions are embedded below on integer label lists; the
doc comment of each definition records what it models.
-/

namespace RapidsMnist

/-- Error raised by the metric functions when the true-label and
predicted-label sequences differ in length. -/
inductive EvalError where
  | lengthMismatch
  deriving DecidableEq

/-- Modelled from the spec: the Evaluator's scalar accuracy (the
accuracy_score call of the metrics library, absent from src) - the count of
positions where the true label equals the predicted label, divided by N;
fails with a length-mismatch error when the inputs differ in length. -/
def accuracy_score (ts ps : List ℤ) : Except EvalError ℚ :=
  if ts.length = ps.length then
    .ok (((ts.zip ps).countP (fun p => p.1 == p.2) : ℚ) / (ts.length : ℚ))
  else
    .error .lengthMismatch

/-- The fixed label set range(10) used by the notebook. -/
def labels10 : List ℤ := [0, 1, 2, 3, 4, 5, 6, 7, 8, 9]

/-- Core of the confusion matrix over a fixed label list: the entry at
(row of label a, column of label b) counts the positions whose true label
is a and whose predicted label is b. -/
def cmCore (ts ps labels : List ℤ) : List (List ℕ) :=
  labels.map (fun a => labels.map (fun b =>
    (ts.zip ps).countP (fun p => p.1 == a && p.2 == b)))

/-- Modelled from the spec: the Evaluator's confusion matrix over a fixed
label set (the confusion_matrix call of the metrics library, absent
from src); fails with a length-mismatch error when the inputs differ in
length. -/
def confusion_matrix (ts ps labels : List ℤ) : Except EvalError (List (List ℕ)) :=
  if ts.length = ps.length then .ok (cmCore ts ps labels)
  else .error .lengthMismatch

/-- Trace of a matrix given as a list of rows. -/
def matTrace (m : List (List ℕ)) : ℕ :=
  ((List.range m.length).map (fun i => (m.getD i []).getD i 0)).sum

/-- Sum of all entries of a matrix given as a list of rows. -/
def matSum (m : List (List ℕ)) : ℕ := (m.map List.sum).sum

/-- True positives of class c: positions with true label c and predicted
label c. -/
def tpCount (ts ps : List ℤ) (c : ℤ) : ℕ :=
  (ts.zip ps).countP (fun p => p.1 == c && p.2 == c)

/-- False negatives of class c: positions with true label c and a different
predicted label. -/
def fnCount (ts ps : List ℤ) (c : ℤ) : ℕ :=
  (ts.zip ps).countP (fun p => p.1 == c && !(p.2 == c))

/-- False positives of class c: positions with predicted label c and a
different true label. -/
def fpCount (ts ps : List ℤ) (c : ℤ) : ℕ :=
  (ts.zip ps).countP (fun p => !(p.1 == c) && p.2 == c)

/-- Modelled from the spec: the per-class recall of the classification
report, TP / (TP + FN). -/
def recallOf (ts ps : List ℤ) (c : ℤ) : ℚ :=
  (tpCount ts ps c : ℚ) / ((tpCount ts ps c : ℚ) + (fnCount ts ps c : ℚ))

/-- Modelled from the spec: the per-class precision of the classification
report, TP / (TP + FP). -/
def precision (ts ps : List ℤ) (c : ℤ) : ℚ :=
  (tpCount ts ps c : ℚ) / ((tpCount ts ps c : ℚ) + (fpCount ts ps c : ℚ))

/-- Modelled from the spec: the per-class F1 score of the classification
report. -/
def f1 (ts ps : List ℤ) (c : ℤ) : ℚ :=
  2 * precision ts ps c * recallOf ts ps c / (precision ts ps c + recallOf ts ps c)

/-- Modelled from the spec: the per-class precision/recall/F1 report (the
classification_report call of the metrics library, absent from src); fails
with a length-mismatch error when the inputs differ in length. -/
def classification_report (ts ps labels : List ℤ) :
    Except EvalError (List (ℚ × ℚ × ℚ)) :=
  if ts.length = ps.length then
    .ok (labels.map (fun c => (precision ts ps c, recallOf ts ps c, f1 ts ps c)))
  else
    .error .lengthMismatch

/-- The per-class value the notebook prints as classification accuracy for
each class: cm.diagonal() / cm.sum(axis=1), entry by entry. -/
def perClassAccuracy (m : List (List ℕ)) : List ℚ :=
  (List.range m.length).map (fun i =>
    ((m.getD i []).getD i 0 : ℚ) / (((m.getD i []).sum : ℕ) : ℚ))

/-- Boolean form of an optional class filter: no filter accepts every
label, a set filter accepts exactly its class. -/
def optFilter : Option ℤ → ℤ → Bool
  | none, _ => true
  | some c, v => v == c

/-- Modelled from the spec: the index selection of the Failure Inspector
(the show_failures utility, absent from src) - the indices where the
prediction differs from the true label, restricted by the optional
true-class and predicted-class filters. -/
def show_failures (preds trues : List ℤ)
    (trueclass predictedclass : Option ℤ) : List ℕ :=
  (List.range trues.length).filter (fun i =>
    (preds.getD i 0 != trues.getD i 0) &&
    optFilter trueclass (trues.getD i 0) &&
    optFilter predictedclass (preds.getD i 0))

/-- The misclassified indices: positions where the prediction differs from
the true label. -/
def misclassified (preds trues : List ℤ) : List ℕ :=
  (List.range trues.length).filter (fun i => preds.getD i 0 != trues.getD i 0)

/-- Propositional form of an optional class filter. -/
def matchOpt : Option ℤ → ℤ → Prop
  | none, _ => True
  | some c, v => v = c

/-- Error raised by the Label Normalizer on a label outside the expected
domain. -/
inductive NormError where
  | domainError
  deriving DecidableEq

/-- Modelled from the spec: the Label Normalizer (the astype cast to a
fixed-width signed integer applied to the labels of get_mnist, whose stored
representation is absent from src) - the identity on label values inside
the domain 0..9, failing with a domain error when some label lies outside
it. -/
def normalize_labels (l : List ℤ) : Except NormError (List ℤ) :=
  if l.all (fun x => decide (0 ≤ x) && decide (x ≤ 9)) then .ok l
  else .error .domainError

/-- Execution device requested for an inference call. -/
inductive Device where
  | cpu
  | gpu
  deriving DecidableEq

/-- The two ensemble classifiers the notebook predicts with. -/
inductive EnsembleKind where
  | forest
  | boosted
  deriving DecidableEq

/-- One prediction call issued by the notebook. -/
structure PredictCall where
  kind : EnsembleKind
  device : Device
  deriving DecidableEq

/-- Shallow embedding of the prediction calls the notebook issues, in
order: clf_rf.predict(X_test, predict_model=CPU) for the forest classifier
and clf_xgb.predict(dtest) on the GPU for the boosted classifier. -/
def notebook_predict_calls : List PredictCall :=
  [⟨EnsembleKind.forest, Device.cpu⟩, ⟨EnsembleKind.boosted, Device.gpu⟩]

/-- The devices requested by the forest-classifier prediction calls of the
notebook. -/
def forest_predict_devices : List Device :=
  (notebook_predict_calls.filter (fun c => c.kind == EnsembleKind.forest)).map
    (fun c => c.device)

/-! ### Counting helpers -/

theorem sum_map_add {α : Type} (l : List α) (f g : α → ℕ) :
    (l.map (fun a => f a + g a)).sum = (l.map f).sum + (l.map g).sum := by
  induction l with
  | nil => simp
  | cons a l ih => simp only [List.map_cons, List.sum_cons, ih]; omega

theorem sum_map_ite {α : Type} (l : List α) (g : α → Bool) :
    (l.map (fun a => if g a then 1 else 0)).sum = l.countP g := by
  induction l with
  | nil => simp
  | cons a l ih =>
    rw [List.map_cons, List.sum_cons, List.countP_cons, ih]
    omega

theorem sum_map_one {α : Type} (l : List α) :
    (l.map (fun _ => (1 : ℕ))).sum = l.length := by
  induction l with
  | nil => rfl
  | cons a l ih =>
    simp only [List.map_cons, List.sum_cons, List.length_cons, ih]
    omega

theorem sum_countP_swap {α β : Type} (L : List α) (l : List β) (g : α → β → Bool) :
    (L.map (fun a => l.countP (g a))).sum =
      (l.map (fun p => L.countP (fun a => g a p))).sum := by
  induction l with
  | nil => simp
  | cons p l ih =>
    simp only [List.countP_cons, List.map_cons, List.sum_cons]
    rw [sum_map_add, ih, sum_map_ite]
    omega

theorem sum_sum_swap {α β : Type} (L : List α) (l : List β) (h : α → β → ℕ) :
    (L.map (fun a => (l.map (h a)).sum)).sum =
      (l.map (fun p => (L.map (fun a => h a p)).sum)).sum := by
  induction L with
  | nil => simp
  | cons a L ih =>
    simp only [List.map_cons, List.sum_cons]
    rw [ih, ← sum_map_add]

theorem countP_split {α : Type} (l : List α) (q r : α → Bool) :
    l.countP (fun a => q a && r a) + l.countP (fun a => q a && !r a) =
      l.countP q := by
  induction l with
  | nil => simp
  | cons a l ih =>
    simp only [List.countP_cons]
    cases hq : q a <;> cases hr : r a <;> simp [hq, hr] <;> omega

theorem countP_const_and {α : Type} (l : List α) (c : Bool) (h : α → Bool) :
    l.countP (fun a => c && h a) = if c then l.countP h else 0 := by
  cases c
  · simp [List.countP_eq_zero]
  · simp

theorem nodup_countP_beq (L : List ℤ) (hn : L.Nodup) (x : ℤ) (hx : x ∈ L) :
    L.countP (fun a => x == a) = 1 := by
  induction L with
  | nil => simp at hx
  | cons c cs ih =>
    rw [List.countP_cons]
    rcases List.mem_cons.mp hx with h | h
    · subst h
      have hnotin : x ∉ cs := (List.nodup_cons.mp hn).1
      have hz : cs.countP (fun a => x == a) = 0 := by
        rw [List.countP_eq_zero]
        intro a ha hxa
        exact hnotin ((beq_iff_eq.mp hxa) ▸ ha)
      simp [hz]
    · have hne : x ≠ c := by
        rintro rfl
        exact (List.nodup_cons.mp hn).1 h
      rw [ih (List.nodup_cons.mp hn).2 h]
      simp [hne]

theorem nodup_countP_diag (L : List ℤ) (hn : L.Nodup) (x y : ℤ) (hx : x ∈ L) :
    L.countP (fun a => x == a && y == a) = if x == y then 1 else 0 := by
  by_cases hxy : x = y
  · subst hxy
    have he : L.countP (fun a => x == a && x == a) = L.countP (fun a => x == a) := by
      apply List.countP_congr
      intro a _
      simp
    rw [he, nodup_countP_beq L hn x hx]
    simp
  · have hz : L.countP (fun a => x == a && y == a) = 0 := by
      rw [List.countP_eq_zero]
      intro a _ hcon
      simp only [Bool.and_eq_true, beq_iff_eq] at hcon
      exact hxy (hcon.1.trans hcon.2.symm)
    rw [hz, if_neg (by simpa using hxy)]

theorem range_getD_sum {α : Type} (l : List α) (d : α) (k : α → ℕ) :
    ((List.range l.length).map (fun i => k (l.getD i d))).sum = (l.map k).sum := by
  induction l with
  | nil => simp
  | cons a l ih =>
    rw [List.length_cons, List.range_succ_eq_map, List.map_cons, List.map_map,
      List.sum_cons, List.getD_cons_zero, List.map_cons, List.sum_cons]
    congr 1

theorem countEq_range (ts ps : List ℤ) (h : ts.length = ps.length) :
    (ts.zip ps).countP (fun p => p.1 == p.2) =
      (List.range ts.length).countP (fun i => ts.getD i 0 == ps.getD i 0) := by
  induction ts generalizing ps with
  | nil => simp
  | cons a ts ih =>
    cases ps with
    | nil => simp at h
    | cons b ps =>
      have h' : ts.length = ps.length := by simpa using h
      rw [List.zip_cons_cons, List.countP_cons, List.length_cons,
        List.range_succ_eq_map, List.countP_cons, List.countP_map, ih ps h']
      have he : (List.range ts.length).countP
            ((fun i => (a :: ts).getD i 0 == (b :: ps).getD i 0) ∘ Nat.succ) =
          (List.range ts.length).countP (fun i => ts.getD i 0 == ps.getD i 0) := by
        apply List.countP_congr
        intro i _
        simp [Function.comp, List.getD_cons_succ]
      rw [he]
      simp [List.getD_cons_zero]

theorem labels10_nodup : labels10.Nodup := by decide

theorem cmCore_trace (ts ps labels : List ℤ) (hn : labels.Nodup)
    (hts : ∀ x ∈ ts, x ∈ labels) :
    matTrace (cmCore ts ps labels) =
      (ts.zip ps).countP (fun p => p.1 == p.2) := by
  have hlen : (cmCore ts ps labels).length = labels.length := by
    simp [cmCore]
  rw [matTrace, hlen]
  have hpt : ∀ i ∈ List.range labels.length,
      ((cmCore ts ps labels).getD i []).getD i 0 =
        (fun a => (ts.zip ps).countP (fun p => p.1 == a && p.2 == a))
          (labels.getD i 0) := by
    intro i hi
    have hi' : i < labels.length := List.mem_range.mp hi
    have hi2 : i < (cmCore ts ps labels).length := by rw [hlen]; exact hi'
    rw [List.getD_eq_getElem _ _ hi2]
    rw [show (cmCore ts ps labels)[i] =
        labels.map (fun b =>
          (ts.zip ps).countP (fun p => p.1 == labels[i] && p.2 == b)) from by
      simp [cmCore]]
    have hi3 : i < (labels.map (fun b =>
        (ts.zip ps).countP (fun p => p.1 == labels[i] && p.2 == b))).length := by
      simpa using hi'
    rw [List.getD_eq_getElem _ _ hi3, List.getElem_map,
      List.getD_eq_getElem labels 0 hi']
  rw [List.map_congr_left hpt,
    range_getD_sum labels 0
      (fun a => (ts.zip ps).countP (fun p => p.1 == a && p.2 == a)),
    sum_countP_swap labels (ts.zip ps) (fun a p => p.1 == a && p.2 == a)]
  have hper : ∀ p ∈ ts.zip ps,
      labels.countP (fun a => p.1 == a && p.2 == a) =
        (fun p : ℤ × ℤ => if p.1 == p.2 then 1 else 0) p := by
    intro p hp
    obtain ⟨p1, p2⟩ := p
    have hmem := (List.of_mem_zip hp).1
    exact nodup_countP_diag labels hn p1 p2 (hts p1 hmem)
  rw [List.map_congr_left hper,
    sum_map_ite (ts.zip ps) (fun p => p.1 == p.2)]

theorem cmCore_rowSum (ts ps labels : List ℤ) (hn : labels.Nodup)
    (hps : ∀ x ∈ ps, x ∈ labels) (a : ℤ) :
    (labels.map (fun b =>
        (ts.zip ps).countP (fun p => p.1 == a && p.2 == b))).sum =
      (ts.zip ps).countP (fun p => p.1 == a) := by
  rw [sum_countP_swap labels (ts.zip ps) (fun b p => p.1 == a && p.2 == b)]
  have hper : ∀ p ∈ ts.zip ps,
      labels.countP (fun b => p.1 == a && p.2 == b) =
        (fun p : ℤ × ℤ => if p.1 == a then 1 else 0) p := by
    intro p hp
    obtain ⟨p1, p2⟩ := p
    dsimp only
    have hmem := (List.of_mem_zip hp).2
    rw [countP_const_and labels (p1 == a) (fun b => p2 == b)]
    by_cases h1 : (p1 == a) = true
    · rw [if_pos h1, if_pos h1, nodup_countP_beq labels hn p2 (hps p2 hmem)]
    · rw [if_neg h1, if_neg h1]
  rw [List.map_congr_left hper, sum_map_ite (ts.zip ps) (fun p => p.1 == a)]

theorem cmCore_sum (ts ps labels : List ℤ) (hn : labels.Nodup)
    (hts : ∀ x ∈ ts, x ∈ labels) (hps : ∀ x ∈ ps, x ∈ labels) :
    matSum (cmCore ts ps labels) = (ts.zip ps).length := by
  rw [matSum, cmCore, List.map_map]
  have hrw : (labels.map (List.sum ∘ fun a => labels.map (fun b =>
        (ts.zip ps).countP (fun p => p.1 == a && p.2 == b)))).sum =
      (labels.map (fun a =>
        (ts.zip ps).countP (fun p => p.1 == a))).sum := by
    apply congrArg
    apply List.map_congr_left
    intro a _
    exact cmCore_rowSum ts ps labels hn hps a
  rw [hrw, sum_countP_swap]
  have hper : ∀ p ∈ ts.zip ps,
      labels.countP (fun a => p.1 == a) = (fun _ : ℤ × ℤ => 1) p := by
    intro p hp
    obtain ⟨p1, p2⟩ := p
    exact nodup_countP_beq labels hn p1 (hts p1 (List.of_mem_zip hp).1)
  rw [List.map_congr_left hper, sum_map_one]

/-! ### Claim theorems -/

/-- C1: for parallel true-label and predicted-label sequences of equal
length N, the Evaluator's scalar accuracy equals the number of positions
where the true label equals the predicted label, divided by N. -/
theorem evaluator_accuracy_counts_matches (ts ps : List ℤ)
    (h : ts.length = ps.length) :
    accuracy_score ts ps =
      .ok ((((List.range ts.length).filter
          (fun i => ts.getD i 0 == ps.getD i 0)).length : ℚ) /
        (ts.length : ℚ)) := by
  rw [accuracy_score, if_pos h, countEq_range ts ps h,
    List.countP_eq_length_filter]

theorem evaluator_accuracy_counts_matches_witness :
    accuracy_score [0, 1] [1, 1] =
      .ok ((((List.range 2).filter
          (fun i => ([0, 1] : List ℤ).getD i 0 ==
            ([1, 1] : List ℤ).getD i 0)).length : ℚ) / (2 : ℚ)) :=
  evaluator_accuracy_counts_matches [0, 1] [1, 1] rfl

/-- C2: for equal-length label sequences over the fixed label set
0..9, the accuracy computed directly from the predictions equals the trace
of the confusion matrix divided by the sum of all its entries. -/
theorem accuracy_eq_trace_div_sum (ts ps : List ℤ)
    (h : ts.length = ps.length)
    (hts : ∀ x ∈ ts, x ∈ labels10) (hps : ∀ x ∈ ps, x ∈ labels10)
    (m : List (List ℕ)) (hm : confusion_matrix ts ps labels10 = .ok m) :
    accuracy_score ts ps = .ok ((matTrace m : ℚ) / (matSum m : ℚ)) := by
  rw [confusion_matrix, if_pos h] at hm
  have hmm : cmCore ts ps labels10 = m := by injection hm
  subst hmm
  rw [accuracy_score, if_pos h,
    cmCore_trace ts ps labels10 labels10_nodup hts,
    cmCore_sum ts ps labels10 labels10_nodup hts hps]
  have hzl : (ts.zip ps).length = ts.length := by
    rw [List.length_zip, h]
    exact min_self ps.length
  rw [hzl]

theorem accuracy_eq_trace_div_sum_witness :
    accuracy_score [3] [3] =
      .ok ((matTrace (cmCore [3] [3] labels10) : ℚ) /
        (matSum (cmCore [3] [3] labels10) : ℚ)) :=
  accuracy_eq_trace_div_sum [3] [3] rfl (by decide) (by decide)
    (cmCore [3] [3] labels10) rfl

/-- C3: for equal-length true-label and predicted-label sequences (labels
drawn from the closed label set 0..9 of the data model), the entries of
the confusion matrix over range(10) sum to the number of samples. -/
theorem confusion_matrix_sum_eq_length (ts ps : List ℤ)
    (h : ts.length = ps.length)
    (hts : ∀ x ∈ ts, x ∈ labels10) (hps : ∀ x ∈ ps, x ∈ labels10)
    (m : List (List ℕ)) (hm : confusion_matrix ts ps labels10 = .ok m) :
    matSum m = ts.length := by
  rw [confusion_matrix, if_pos h] at hm
  have hmm : cmCore ts ps labels10 = m := by injection hm
  subst hmm
  rw [cmCore_sum ts ps labels10 labels10_nodup hts hps, List.length_zip, h]
  exact min_self ps.length

theorem confusion_matrix_sum_eq_length_witness :
    matSum (cmCore [2] [7] labels10) = 1 :=
  confusion_matrix_sum_eq_length [2] [7] rfl (by decide) (by decide)
    (cmCore [2] [7] labels10) rfl

theorem labels10_getD (c : ℕ) (hc : c < 10) : labels10.getD c 0 = (c : ℤ) := by
  interval_cases c <;> rfl

theorem labels10_length : labels10.length = 10 := rfl

theorem cmCore_row (ts ps : List ℤ) (c : ℕ) (hc : c < 10) :
    (cmCore ts ps labels10).getD c [] =
      labels10.map (fun b =>
        (ts.zip ps).countP (fun p => p.1 == (c : ℤ) && p.2 == b)) := by
  have hlen : c < (cmCore ts ps labels10).length := by
    simpa [cmCore, labels10_length] using hc
  rw [List.getD_eq_getElem _ _ hlen]
  have hc' : c < labels10.length := by rw [labels10_length]; exact hc
  rw [show (cmCore ts ps labels10)[c] =
      labels10.map (fun b =>
        (ts.zip ps).countP (fun p => p.1 == labels10[c] && p.2 == b)) from by
    simp [cmCore]]
  rw [show labels10[c] = (c : ℤ) from by
    rw [← List.getD_eq_getElem labels10 0 hc']
    exact labels10_getD c hc]

/-- C10: the per-class value printed as classification accuracy for each
class (the confusion-matrix diagonal entry divided by the row sum, for
rows with nonzero sum) equals the per-class recall of the classification
report. -/
theorem per_class_accuracy_eq_recall (ts ps : List ℤ)
    (h : ts.length = ps.length) (hps : ∀ x ∈ ps, x ∈ labels10)
    (m : List (List ℕ)) (hm : confusion_matrix ts ps labels10 = .ok m)
    (c : ℕ) (hc : c < 10) (hnz : (m.getD c []).sum ≠ 0) :
    (perClassAccuracy m).getD c 0 = recallOf ts ps (c : ℤ) ∧
    (∀ r, classification_report ts ps labels10 = .ok r →
      (r.getD c (0, 0, 0)).2.1 = recallOf ts ps (c : ℤ)) := by
  rw [confusion_matrix, if_pos h] at hm
  have hmm : cmCore ts ps labels10 = m := by injection hm
  subst hmm
  have hrow := cmCore_row ts ps c hc
  have hrsum : ((cmCore ts ps labels10).getD c []).sum =
      tpCount ts ps (c : ℤ) + fnCount ts ps (c : ℤ) := by
    rw [hrow, cmCore_rowSum ts ps labels10 labels10_nodup hps (c : ℤ)]
    rw [tpCount, fnCount]
    exact (countP_split (ts.zip ps) (fun p => p.1 == (c : ℤ))
      (fun p => p.2 == (c : ℤ))).symm
  have hdiag : ((cmCore ts ps labels10).getD c []).getD c 0 =
      tpCount ts ps (c : ℤ) := by
    rw [hrow]
    have hc' : c < labels10.length := by rw [labels10_length]; exact hc
    have hc2 : c < (labels10.map (fun b =>
        (ts.zip ps).countP (fun p => p.1 == (c : ℤ) && p.2 == b))).length := by
      simpa using hc'
    rw [List.getD_eq_getElem _ _ hc2, List.getElem_map, tpCount]
    rw [show labels10[c] = (c : ℤ) from by
      rw [← List.getD_eq_getElem labels10 0 hc']
      exact labels10_getD c hc]
  constructor
  · have hlen : c < (List.range (cmCore ts ps labels10).length).length := by
      simpa [cmCore, labels10_length] using hc
    rw [perClassAccuracy, List.getD_eq_getElem _ _ (by simpa using hlen),
      List.getElem_map, List.getElem_range]
    rw [hdiag, hrsum, recallOf]
    push_cast
    rfl
  · intro r hr
    rw [classification_report, if_pos h] at hr
    have hrr : labels10.map (fun c =>
        (precision ts ps c, recallOf ts ps c, f1 ts ps c)) = r := by
      injection hr
    subst hrr
    have hc' : c < labels10.length := by rw [labels10_length]; exact hc
    have hc2 : c < (labels10.map (fun c =>
        (precision ts ps c, recallOf ts ps c, f1 ts ps c))).length := by
      simpa using hc'
    rw [List.getD_eq_getElem _ _ hc2, List.getElem_map]
    rw [show labels10[c] = (c : ℤ) from by
      rw [← List.getD_eq_getElem labels10 0 hc']
      exact labels10_getD c hc]

theorem per_class_accuracy_eq_recall_witness :
    (perClassAccuracy (cmCore [1, 1] [1, 0] labels10)).getD 1 0 =
      recallOf [1, 1] [1, 0] (1 : ℤ) :=
  (per_class_accuracy_eq_recall [1, 1] [1, 0] rfl (by decide)
    (cmCore [1, 1] [1, 0] labels10) rfl 1 (by decide) (by decide)).1

theorem contains_eq_decide_mem (L : List ℕ) (x : ℕ) :
    L.contains x = decide (x ∈ L) := by
  simp [List.contains_iff_exists_mem_beq]

/-- C4: the Failure Inspector selects exactly the indices where the
prediction differs from the true label and both optional filters accept;
with no filters this is the misclassified indices, with trueClass set it
is their subset with that true label, and with both filters set it is the
intersection of the two single-filter selections. -/
theorem show_failures_selects_filtered_misclassified (preds trues : List ℤ)
    (_h : preds.length = trues.length) :
    (∀ (tc pc : Option ℤ) (i : ℕ),
      i ∈ show_failures preds trues tc pc ↔
        i < trues.length ∧ ¬preds.getD i 0 = trues.getD i 0 ∧
          matchOpt tc (trues.getD i 0) ∧ matchOpt pc (preds.getD i 0)) ∧
    show_failures preds trues none none = misclassified preds trues ∧
    (show_failures preds trues (some 5) none =
      (misclassified preds trues).filter (fun i => trues.getD i 0 == 5)) ∧
    (∀ a b : ℤ, show_failures preds trues (some a) (some b) =
      (show_failures preds trues (some a) none).filter
        (fun i => (show_failures preds trues none (some b)).contains i)) := by
  refine ⟨?_, ?_, ?_, ?_⟩
  · intro tc pc i
    rw [show_failures, List.mem_filter, List.mem_range]
    cases tc <;> cases pc <;>
      simp [optFilter, matchOpt, and_assoc, bne_iff_ne]
  · rw [show_failures, misclassified]
    apply List.filter_congr
    intro i _
    simp [optFilter]
  · rw [show_failures, misclassified, List.filter_filter]
    apply List.filter_congr
    intro i _
    simp only [optFilter, Bool.and_true]
    exact Bool.and_comm _ _
  · intro a b
    rw [show_failures, show_failures, show_failures, List.filter_filter]
    apply List.filter_congr
    intro i hi
    have hmem : (i ∈ (List.range trues.length).filter (fun j =>
        (preds.getD j 0 != trues.getD j 0) &&
          optFilter none (trues.getD j 0) &&
          optFilter (some b) (preds.getD j 0))) ↔
        ((preds.getD i 0 != trues.getD i 0) &&
          optFilter none (trues.getD i 0) &&
          optFilter (some b) (preds.getD i 0)) = true := by
      rw [List.mem_filter]
      exact and_iff_right hi
    have hdec : ((List.range trues.length).filter (fun j =>
        (preds.getD j 0 != trues.getD j 0) &&
          optFilter none (trues.getD j 0) &&
          optFilter (some b) (preds.getD j 0))).contains i =
        ((preds.getD i 0 != trues.getD i 0) &&
          optFilter none (trues.getD i 0) &&
          optFilter (some b) (preds.getD i 0)) := by
      rw [contains_eq_decide_mem, decide_eq_decide.mpr hmem]
      exact Bool.decide_coe _
    rw [hdec]
    simp only [optFilter]
    cases hne : (preds.getD i 0 != trues.getD i 0) <;>
      cases hta : (trues.getD i 0 == a) <;>
      cases hpb : (preds.getD i 0 == b) <;>
      simp only [hne, hta, hpb, Bool.and_true, Bool.true_and,
        Bool.false_and, Bool.and_false, Bool.and_self]

theorem show_failures_selects_filtered_misclassified_witness :
    show_failures [1, 0] [0, 0] none none = misclassified [1, 0] [0, 0] :=
  (show_failures_selects_filtered_misclassified [1, 0] [0, 0] rfl).2.1

/-- C5: the Label Normalizer is the identity on every sequence of labels
inside the domain 0..9, and it fails with a domain error exactly when some
label lies outside that domain. -/
theorem normalize_labels_domain (l : List ℤ) :
    ((∀ x ∈ l, 0 ≤ x ∧ x ≤ 9) → normalize_labels l = .ok l) ∧
    (normalize_labels l = .error .domainError ↔ ∃ x ∈ l, x < 0 ∨ 9 < x) := by
  constructor
  · intro hdom
    rw [normalize_labels, if_pos]
    rw [List.all_eq_true]
    intro x hx
    simp only [Bool.and_eq_true, decide_eq_true_eq]
    exact hdom x hx
  · rw [normalize_labels]
    by_cases hall : (l.all fun x => decide (0 ≤ x) && decide (x ≤ 9)) = true
    · rw [if_pos hall]
      constructor
      · intro hcon
        exact Except.noConfusion hcon
      · rintro ⟨x, hx, hout⟩
        have hin := List.all_eq_true.mp hall x hx
        simp only [Bool.and_eq_true, decide_eq_true_eq] at hin
        rcases hout with hlt | hgt <;> omega
    · rw [if_neg hall]
      constructor
      · intro _
        rw [List.all_eq_true] at hall
        push_neg at hall
        obtain ⟨x, hx, hfail⟩ := hall
        refine ⟨x, hx, ?_⟩
        simp at hfail
        omega
      · intro _
        rfl

theorem normalize_labels_domain_witness :
    normalize_labels [0, 5, 9] = .ok [0, 5, 9] :=
  (normalize_labels_domain [0, 5, 9]).1 (by decide)

/-- C6: label normalization is idempotent - normalizing an
already-normalized label sequence returns the identical sequence. -/
theorem normalize_labels_idempotent (l r : List ℤ)
    (h : normalize_labels l = .ok r) : normalize_labels r = .ok r := by
  rw [normalize_labels] at h
  by_cases hall : (l.all fun x => decide (0 ≤ x) && decide (x ≤ 9)) = true
  · rw [if_pos hall] at h
    have hlr : l = r := by injection h
    subst hlr
    rw [normalize_labels, if_pos hall]
  · rw [if_neg hall] at h
    exact Except.noConfusion h

theorem normalize_labels_idempotent_witness :
    normalize_labels [3] = .ok [3] :=
  normalize_labels_idempotent [3] [3] rfl

/-- C7: on the toy inputs y_true = [0,1,1,0], y_pred = [0,1,0,0] the
accuracy is 0.75, the confusion-matrix entry at (true 1, predicted 0)
is 1, and the Failure Inspector with trueClass = 1 selects index 2 only. -/
theorem toy_scenario_metrics :
    accuracy_score [0, 1, 1, 0] [0, 1, 0, 0] = .ok (3 / 4) ∧
    (∃ m, confusion_matrix [0, 1, 1, 0] [0, 1, 0, 0] labels10 = .ok m ∧
      (m.getD 1 []).getD 0 0 = 1) ∧
    show_failures [0, 1, 0, 0] [0, 1, 1, 0] (some 1) none = [2] :=
  ⟨rfl, ⟨cmCore [0, 1, 1, 0] [0, 1, 0, 0] labels10, rfl, rfl⟩, rfl⟩

/-- C8: on true-label and predicted-label sequences of different lengths
the Evaluator fails with a length-mismatch error and produces no accuracy,
no confusion matrix and no per-class report. -/
theorem evaluator_length_mismatch (ts ps : List ℤ)
    (h : ¬ts.length = ps.length) :
    accuracy_score ts ps = .error .lengthMismatch ∧
    confusion_matrix ts ps labels10 = .error .lengthMismatch ∧
    classification_report ts ps labels10 = .error .lengthMismatch := by
  refine ⟨?_, ?_, ?_⟩
  · rw [accuracy_score, if_neg h]
  · rw [confusion_matrix, if_neg h]
  · rw [classification_report, if_neg h]

theorem evaluator_length_mismatch_witness :
    accuracy_score [0] [] = .error .lengthMismatch ∧
    confusion_matrix [0] [] labels10 = .error .lengthMismatch ∧
    classification_report [0] [] labels10 = .error .lengthMismatch :=
  evaluator_length_mismatch [0] [] (by decide)

/-- C9: every forest-classifier prediction call the notebook issues
requests CPU execution, and none requests the GPU. -/
theorem forest_inference_requests_cpu :
    forest_predict_devices = [Device.cpu] := rfl

end RapidsMnist
